import Mathlib

/-!
Shallow embedding of `projects/confusion-matrix/src/lib/components/confusion-matrix.models.ts`.

JavaScript numbers are modelled as exact rationals (`ℚ`); where the source can
produce the special IEEE values `NaN`/`Infinity` (only through division and the
`|| 0` fallback in the metric methods), arithmetic is carried out in the type
`JsNum`, which is `ℚ` extended by `nan`, `inf` and `ninf` with the IEEE rules
used by JavaScript (a single zero; `0/0 = NaN`, `x/0 = ±Infinity`).

A thrown JavaScript exception is modelled as `Except String` (the thrown
message) for pure queries, and as a `CMState × Option String` result (post-throw
state plus the thrown message, `none` on normal return) for mutating methods,
because the source mutates `this` before validating, so the state at throw time
is observable.

`deepCopy` (`JSON.parse(JSON.stringify(...))`) is the identity on the values
involved (finite numbers, strings, arrays) and value semantics make it implicit.
Snapshots pushed on the normalization history are built by the copy constructor,
which copies only `labels` and `matrix` (the private `normalizations` field of a
snapshot is always empty and never read), so a history entry is a `CMSnapshot`.
-/

/-- JavaScript number: a rational or one of the IEEE special values. -/
inductive JsNum where
  | num : ℚ → JsNum
  | nan : JsNum
  | inf : JsNum
  | ninf : JsNum
deriving DecidableEq

namespace JsNum

/-- JavaScript `+` on numbers. -/
def add : JsNum → JsNum → JsNum
  | nan, _ => nan
  | _, nan => nan
  | inf, ninf => nan
  | ninf, inf => nan
  | inf, _ => inf
  | _, inf => inf
  | ninf, _ => ninf
  | _, ninf => ninf
  | num a, num b => num (a + b)

/-- JavaScript `*` on numbers. -/
def mul : JsNum → JsNum → JsNum
  | nan, _ => nan
  | _, nan => nan
  | inf, inf => inf
  | inf, ninf => ninf
  | ninf, inf => ninf
  | ninf, ninf => inf
  | inf, num b => if b = 0 then nan else if 0 < b then inf else ninf
  | num a, inf => if a = 0 then nan else if 0 < a then inf else ninf
  | ninf, num b => if b = 0 then nan else if 0 < b then ninf else inf
  | num a, ninf => if a = 0 then nan else if 0 < a then ninf else inf
  | num a, num b => num (a * b)

/-- JavaScript `/` on numbers (single zero: `0/0 = NaN`, `a/0 = ±Infinity`). -/
def div : JsNum → JsNum → JsNum
  | nan, _ => nan
  | _, nan => nan
  | inf, inf => nan
  | inf, ninf => nan
  | ninf, inf => nan
  | ninf, ninf => nan
  | inf, num b => if 0 ≤ b then inf else ninf
  | ninf, num b => if 0 ≤ b then ninf else inf
  | num _, inf => num 0
  | num _, ninf => num 0
  | num a, num b =>
      if b = 0 then (if a = 0 then nan else if 0 < a then inf else ninf)
      else num (a / b)

end JsNum

/-- JavaScript `x || 0`: `0` and `NaN` are the falsy numbers. -/
def jsOrZero : JsNum → JsNum
  | JsNum.nan => JsNum.num 0
  | JsNum.num a => JsNum.num a
  | x => x

/-- A normalization-history entry: the copy constructor applied to `this`
copies only `labels` and `matrix`. -/
structure CMSnapshot where
  labels : List String
  matrix : List (List ℚ)
deriving DecidableEq

/-- The mutable fields of the `ConfusionMatrix` class. -/
structure ConfusionMatrix where
  labels : List String
  matrix : List (List ℚ)
  normalizations : List CMSnapshot
deriving DecidableEq

/-- The four derived counts (`ConfusionMatrixClasses` interface). -/
structure ConfusionMatrixClasses where
  truePositive : ℚ
  trueNegative : ℚ
  falsePositive : ℚ
  falseNegative : ℚ
deriving DecidableEq

/-- The `Average` enum. -/
inductive Average where
  | Micro
  | Macro
  | Weighted
deriving DecidableEq

namespace ConfusionMatrix

/-- `Array.prototype.findIndex`, with `none` for `-1`. -/
def findIndex (p : String → Bool) : List String → Option ℕ
  | [] => none
  | x :: xs => if p x then some 0 else (findIndex p xs).map (fun i => i + 1)

/-- The duplicate-label double loop of `validateMatrix`: the first label that
reappears later in the list (smallest first index, as in the source loops). -/
def findDup : List String → Option String
  | [] => none
  | x :: xs => if x ∈ xs then some x else findDup xs

/-- `validateMatrix()`: `none` when the structural invariants hold, otherwise
the first thrown message, in the source's check order. -/
def validateMatrix (labels : List String) (matrix : List (List ℚ)) : Option String :=
  if labels.length ≠ matrix.length then
    some "The labels length should be equals to the matrix columns length."
  else
    match findDup labels with
    | some l => some ("The label " ++ l ++ " appears more than once in the labels array.")
    | none =>
        if matrix.all (fun row => row.length = matrix.length) then none
        else some "The confusion matrix does not have the columns/rows length."

/-- `sumMatrix`: nested `forEach` accumulation = sum of the row sums. -/
def sumMatrix (matrix : List (List ℚ)) : ℚ :=
  (matrix.map List.sum).sum

/-- `setConfusionMatrix(confusionMatrix)`: assigns deep copies of the
candidate's `labels` and `matrix`, then validates. The returned state is the
state at return or throw time (assignment happens before validation). -/
def setConfusionMatrix (s : ConfusionMatrix) (cm : CMSnapshot) :
    ConfusionMatrix × Option String :=
  let s2 : ConfusionMatrix :=
    { labels := cm.labels, matrix := cm.matrix, normalizations := s.normalizations }
  (s2, validateMatrix s2.labels s2.matrix)

/-- `getMinAndMax()`. An empty matrix makes `this.matrix[0][0]` throw a
`TypeError` (indexing `undefined`); an absent or zero first cell is falsy and
yields `null`; otherwise the pair fold over every cell. -/
def getMinAndMax (matrix : List (List ℚ)) : Except String (Option (ℚ × ℚ)) :=
  match matrix with
  | [] => .error "TypeError: Cannot read properties of undefined (reading 0)"
  | firstRow :: _ =>
      match firstRow with
      | [] => .ok none
      | c :: _ =>
          if c = 0 then .ok none
          else
            .ok (some (matrix.foldl
              (fun mm line => line.foldl
                (fun mm2 v =>
                  (if v < mm2.1 then v else mm2.1, if mm2.2 < v then v else mm2.2)) mm)
              (c, c)))

/-- `Number.prototype.toFixed(d)` followed by unary `+`, idealized over `ℚ`. -/
def toFixedRound (q : ℚ) (d : ℕ) : ℚ :=
  (round (q * (10 : ℚ) ^ d) : ℤ) / (10 : ℚ) ^ d

/-- `normalize(min, max, fractionDigits?)`. Checks the range, revalidates,
computes min/max (propagating its `TypeError` on an empty matrix), pushes a
snapshot of the current state, then rescales every cell. -/
def normalize (s : ConfusionMatrix) (min max : ℚ) (fractionDigits : Option ℕ) :
    ConfusionMatrix × Option String :=
  if max ≤ min then
    (s, some "Min value cannot be equal or greater than max value.")
  else
    match validateMatrix s.labels s.matrix with
    | some e => (s, some e)
    | none =>
        match getMinAndMax s.matrix with
        | .error e => (s, some e)
        | .ok none =>
            (s, some "Error getting the min and max value. Please, verify the matrix dimensions.")
        | .ok (some (minX, maxX)) =>
            let newMatrix := s.matrix.map (fun row => row.map (fun x =>
              let v := ((max - min) * ((x - minX) / (maxX - minX))) + min
              match fractionDigits with
              | some d => toFixedRound v d
              | none => v))
            ({ labels := s.labels, matrix := newMatrix,
               normalizations := s.normalizations ++ [⟨s.labels, s.matrix⟩] }, none)

/-- `revertNormalization()`: pops the newest snapshot (if any) and restores it
through `setConfusionMatrix`. -/
def revertNormalization (s : ConfusionMatrix) : ConfusionMatrix × Option String :=
  match s.normalizations.getLast? with
  | none => (s, none)
  | some snap =>
      setConfusionMatrix
        { labels := s.labels, matrix := s.matrix,
          normalizations := s.normalizations.dropLast } snap

/-- `revertAllNormalizations()`: `setConfusionMatrix(this.normalizations[0])`.
With an empty history `normalizations[0]` is `undefined`, the guard
`if (confusionMatrix)` skips the assignment and only `validateMatrix` runs. -/
def revertAllNormalizations (s : ConfusionMatrix) : ConfusionMatrix × Option String :=
  match s.normalizations with
  | [] => (s, validateMatrix s.labels s.matrix)
  | snap :: _ => setConfusionMatrix s snap

/-- `getConfusionMatrixClasses(label)`. -/
def getConfusionMatrixClasses (s : ConfusionMatrix) (label : String) :
    Except String ConfusionMatrixClasses :=
  match validateMatrix s.labels s.matrix with
  | some e => .error e
  | none =>
      if label = "" then .error "A valid label should be passed."
      else
        match findIndex (fun element => element == label) s.labels with
        | none => .error "The label does not exists in the matrix."
        | some position =>
            let matrixSum := sumMatrix s.matrix
            let row := s.matrix.getD position []
            let truePositive := row.getD position 0
            let falsePositive := row.sum - truePositive
            let falseNegative := (s.matrix.map (fun r => r.getD position 0)).sum - truePositive
            let trueNegative := matrixSum - truePositive - falsePositive - falseNegative
            .ok ⟨truePositive, trueNegative, falsePositive, falseNegative⟩

/-- The body of `getAllMatrixClasses`'s `forEach`: the first inner throw
propagates and the partially built local array is discarded. -/
def collectClasses (s : ConfusionMatrix) :
    List String → Except String (List (String × ConfusionMatrixClasses))
  | [] => .ok []
  | l :: ls =>
      match getConfusionMatrixClasses s l with
      | .error e => .error e
      | .ok c =>
          match collectClasses s ls with
          | .error e => .error e
          | .ok rest => .ok ((l, c) :: rest)

/-- `getAllMatrixClasses()`. -/
def getAllMatrixClasses (s : ConfusionMatrix) :
    Except String (List (String × ConfusionMatrixClasses)) :=
  match validateMatrix s.labels s.matrix with
  | some e => .error e
  | none => collectClasses s s.labels

/-- `getSumConfusionMatrixClasses()`: componentwise accumulation. -/
def getSumConfusionMatrixClasses (s : ConfusionMatrix) :
    Except String ConfusionMatrixClasses :=
  match getAllMatrixClasses s with
  | .error e => .error e
  | .ok classes =>
      .ok (classes.foldl
        (fun acc x =>
          ⟨acc.truePositive + x.2.truePositive, acc.trueNegative + x.2.trueNegative,
           acc.falsePositive + x.2.falsePositive, acc.falseNegative + x.2.falseNegative⟩)
        ⟨0, 0, 0, 0⟩)

/-- The inner `forEach` of `getLabelsPredictionsSum`: `sumLabels[index] += value`
over one row. Every valid matrix has rows no longer than `sumLabels`, for which
this positional recursion coincides with the indexed writes of the source. -/
def addRowInto : List ℚ → List ℚ → List ℚ
  | acc, [] => acc
  | [], _ :: _ => []
  | a :: as, v :: vs => (a + v) :: addRowInto as vs

/-- `getLabelsPredictionsSum()`: per-column totals, starting from a zero-filled
array of `labels.length`. -/
def getLabelsPredictionsSum (s : ConfusionMatrix) : List ℚ :=
  s.matrix.foldl addRowInto (List.replicate s.labels.length (0 : ℚ))

/-- `getNumberOfPredictions(label?)`. An absent label gives `findIndex = -1`
and `sumLabels[-1]` is `undefined` (modelled `ok none`); the no-label branch is
`reduce` without an initial value, which throws on an empty array. -/
def getNumberOfPredictions (s : ConfusionMatrix) (label : Option String) :
    Except String (Option ℚ) :=
  let sumLabels := getLabelsPredictionsSum s
  match label with
  | some l =>
      if 0 < l.length then
        match findIndex (fun value => value == l) s.labels with
        | some index => .ok (some (sumLabels.getD index 0))
        | none => .ok none
      else
        match sumLabels with
        | [] => .error "TypeError: Reduce of empty array with no initial value"
        | x :: xs => .ok (some (xs.foldl (fun p n => p + n) x))
  | none =>
      match sumLabels with
      | [] => .error "TypeError: Reduce of empty array with no initial value"
      | x :: xs => .ok (some (xs.foldl (fun p n => p + n) x))

/-- `labelAccuracy(label)`. -/
def labelAccuracy (s : ConfusionMatrix) (label : String) : Except String JsNum :=
  match validateMatrix s.labels s.matrix with
  | some e => .error e
  | none =>
      match getConfusionMatrixClasses s label with
      | .error e => .error e
      | .ok c =>
          .ok (jsOrZero (JsNum.div
            (.num (c.truePositive + c.trueNegative))
            (.num (c.truePositive + c.trueNegative + c.falsePositive + c.falseNegative))))

/-- `labelMissClassificationRate(label)`. -/
def labelMissClassificationRate (s : ConfusionMatrix) (label : String) :
    Except String JsNum :=
  match validateMatrix s.labels s.matrix with
  | some e => .error e
  | none =>
      match getConfusionMatrixClasses s label with
      | .error e => .error e
      | .ok c =>
          .ok (jsOrZero (JsNum.div
            (.num (c.falsePositive + c.falseNegative))
            (.num (c.truePositive + c.trueNegative + c.falsePositive + c.falseNegative))))

/-- `labelPrecision(label)`. -/
def labelPrecision (s : ConfusionMatrix) (label : String) : Except String JsNum :=
  match validateMatrix s.labels s.matrix with
  | some e => .error e
  | none =>
      match getConfusionMatrixClasses s label with
      | .error e => .error e
      | .ok c =>
          .ok (jsOrZero (JsNum.div
            (.num c.truePositive)
            (.num (c.truePositive + c.falsePositive))))

/-- `labelRecall(label)`. -/
def labelRecall (s : ConfusionMatrix) (label : String) : Except String JsNum :=
  match validateMatrix s.labels s.matrix with
  | some e => .error e
  | none =>
      match getConfusionMatrixClasses s label with
      | .error e => .error e
      | .ok c =>
          .ok (jsOrZero (JsNum.div
            (.num c.truePositive)
            (.num (c.truePositive + c.falseNegative))))

/-- `labelSpecificity(label)`. -/
def labelSpecificity (s : ConfusionMatrix) (label : String) : Except String JsNum :=
  match validateMatrix s.labels s.matrix with
  | some e => .error e
  | none =>
      match getConfusionMatrixClasses s label with
      | .error e => .error e
      | .ok c =>
          .ok (jsOrZero (JsNum.div
            (.num c.trueNegative)
            (.num (c.trueNegative + c.falsePositive))))

/-- The `forEach` accumulations `sum += metric(label)` of the macro averages. -/
def sumOverLabels (f : String → Except String JsNum) :
    List String → JsNum → Except String JsNum
  | [], acc => .ok acc
  | l :: ls, acc =>
      match f l with
      | .error e => .error e
      | .ok v => sumOverLabels f ls (acc.add v)

/-- The `forEach` accumulations `sum += metric(label) * sumLabels[index]` of the
weighted averages; the labels are paired with their prediction sums
(`sumLabels` always has `labels.length` entries, so the zip is lossless). -/
def weightedSumOverLabels (f : String → Except String JsNum) :
    List (String × ℚ) → JsNum → Except String JsNum
  | [], acc => .ok acc
  | (l, w) :: ls, acc =>
      match f l with
      | .error e => .error e
      | .ok v => weightedSumOverLabels f ls (acc.add (v.mul (.num w)))

/-- `microAccuracy()`. -/
def microAccuracy (s : ConfusionMatrix) : Except String JsNum :=
  match getSumConfusionMatrixClasses s with
  | .error e => .error e
  | .ok c =>
      .ok (jsOrZero (JsNum.div
        (.num (c.truePositive + c.trueNegative))
        (.num (c.truePositive + c.trueNegative + c.falsePositive + c.falseNegative))))

/-- `macroAccuracy()`. -/
def macroAccuracy (s : ConfusionMatrix) : Except String JsNum :=
  match sumOverLabels (labelAccuracy s) s.labels (.num 0) with
  | .error e => .error e
  | .ok sum => .ok (jsOrZero (sum.div (.num (s.labels.length : ℚ))))

/-- JavaScript arithmetic coercion of a possibly `undefined` number. -/
def jsNumOfOpt : Option ℚ → JsNum
  | some q => .num q
  | none => .nan

/-- `weightedAccuracy()`. -/
def weightedAccuracy (s : ConfusionMatrix) : Except String JsNum :=
  let sumLabels := getLabelsPredictionsSum s
  match getNumberOfPredictions s none with
  | .error e => .error e
  | .ok n =>
      match weightedSumOverLabels (labelAccuracy s) (s.labels.zip sumLabels) (.num 0) with
      | .error e => .error e
      | .ok sum => .ok (jsOrZero (sum.div (jsNumOfOpt n)))

/-- `matrixAccuracy(average = Average.Weighted)`. -/
def matrixAccuracy (s : ConfusionMatrix) (average : Average) : Except String JsNum :=
  match validateMatrix s.labels s.matrix with
  | some e => .error e
  | none =>
      match average with
      | .Micro => microAccuracy s
      | .Macro => macroAccuracy s
      | .Weighted => weightedAccuracy s

/-- `microPrecision()`. -/
def microPrecision (s : ConfusionMatrix) : Except String JsNum :=
  match getSumConfusionMatrixClasses s with
  | .error e => .error e
  | .ok c =>
      .ok (jsOrZero (JsNum.div
        (.num c.truePositive)
        (.num (c.truePositive + c.falsePositive))))

/-- `macroPrecision()`. -/
def macroPrecision (s : ConfusionMatrix) : Except String JsNum :=
  match sumOverLabels (labelPrecision s) s.labels (.num 0) with
  | .error e => .error e
  | .ok sum => .ok (jsOrZero (sum.div (.num (s.labels.length : ℚ))))

/-- `weightedPrecision()`. -/
def weightedPrecision (s : ConfusionMatrix) : Except String JsNum :=
  let sumLabels := getLabelsPredictionsSum s
  match getNumberOfPredictions s none with
  | .error e => .error e
  | .ok n =>
      match weightedSumOverLabels (labelPrecision s) (s.labels.zip sumLabels) (.num 0) with
      | .error e => .error e
      | .ok sum => .ok (jsOrZero (sum.div (jsNumOfOpt n)))

/-- `matrixPrecision(average = Average.Weighted)`. -/
def matrixPrecision (s : ConfusionMatrix) (average : Average) : Except String JsNum :=
  match validateMatrix s.labels s.matrix with
  | some e => .error e
  | none =>
      match average with
      | .Micro => microPrecision s
      | .Macro => macroPrecision s
      | .Weighted => weightedPrecision s

/-- `microRecall()`. -/
def microRecall (s : ConfusionMatrix) : Except String JsNum :=
  match getSumConfusionMatrixClasses s with
  | .error e => .error e
  | .ok c =>
      .ok (jsOrZero (JsNum.div
        (.num c.truePositive)
        (.num (c.truePositive + c.falseNegative))))

/-- `macroRecall()`. -/
def macroRecall (s : ConfusionMatrix) : Except String JsNum :=
  match sumOverLabels (labelRecall s) s.labels (.num 0) with
  | .error e => .error e
  | .ok sum => .ok (jsOrZero (sum.div (.num (s.labels.length : ℚ))))

/-- `weightedRecall()`. -/
def weightedRecall (s : ConfusionMatrix) : Except String JsNum :=
  let sumLabels := getLabelsPredictionsSum s
  match getNumberOfPredictions s none with
  | .error e => .error e
  | .ok n =>
      match weightedSumOverLabels (labelRecall s) (s.labels.zip sumLabels) (.num 0) with
      | .error e => .error e
      | .ok sum => .ok (jsOrZero (sum.div (jsNumOfOpt n)))

/-- `matrixRecall(average = Average.Weighted)`. -/
def matrixRecall (s : ConfusionMatrix) (average : Average) : Except String JsNum :=
  match validateMatrix s.labels s.matrix with
  | some e => .error e
  | none =>
      match average with
      | .Micro => microRecall s
      | .Macro => macroRecall s
      | .Weighted => weightedRecall s

/-- The `precision(configuration)` dispatcher (`label` empty or absent falls
through to the matrix form with default average `Weighted`). -/
def precision (s : ConfusionMatrix) (label : Option String) (average : Option Average) :
    Except String JsNum :=
  match validateMatrix s.labels s.matrix with
  | some e => .error e
  | none =>
      match label with
      | some l =>
          if 0 < l.length then labelPrecision s l
          else matrixPrecision s (average.getD .Weighted)
      | none => matrixPrecision s (average.getD .Weighted)

/-- The `recall(configuration)` dispatcher (named `recallMetric` here because
`recall` is a reserved word in this development's prover library). -/
def recallMetric (s : ConfusionMatrix) (label : Option String) (average : Option Average) :
    Except String JsNum :=
  match validateMatrix s.labels s.matrix with
  | some e => .error e
  | none =>
      match label with
      | some l =>
          if 0 < l.length then labelRecall s l
          else matrixRecall s (average.getD .Weighted)
      | none => matrixRecall s (average.getD .Weighted)

/-- `labelF1Score(label)`: computed from the `precision` and `recall`
dispatchers called with `{ label }`. -/
def labelF1Score (s : ConfusionMatrix) (label : String) : Except String JsNum :=
  match validateMatrix s.labels s.matrix with
  | some e => .error e
  | none =>
      match precision s (some label) none with
      | .error e => .error e
      | .ok p =>
          match recallMetric s (some label) none with
          | .error e => .error e
          | .ok r => .ok (jsOrZero ((JsNum.num 2).mul ((p.mul r).div (p.add r))))

/-- `matrix[i][j]` as a total function (defaulting to `0` outside the grid). -/
def mEntry (m : List (List ℚ)) (i j : ℕ) : ℚ :=
  (m.getD i []).getD j 0

end ConfusionMatrix

open ConfusionMatrix

section ListHelpers

/-- A list whose indexed reads are all zero sums to zero. -/
theorem sum_zero_of_getD_zero (r : List ℚ) (h : ∀ j, j < r.length → r.getD j 0 = 0) :
    r.sum = 0 := by
  induction r with
  | nil => simp
  | cons a t ih =>
      have ha : a = 0 := by simpa using h 0 (by simp)
      have ht : t.sum = 0 := by
        apply ih
        intro j hj
        simpa using h (j + 1) (by simpa using hj)
      simp [ha, ht]

/-- A list vanishing away from position `p` sums to its `p`-th entry. -/
theorem sum_eq_getD_of_off_zero (r : List ℚ) (p : ℕ) (hp : p < r.length)
    (h : ∀ j, j < r.length → j ≠ p → r.getD j 0 = 0) :
    r.sum = r.getD p 0 := by
  induction r generalizing p with
  | nil => simp at hp
  | cons a t ih =>
      cases p with
      | zero =>
          have ht : t.sum = 0 := by
            apply sum_zero_of_getD_zero
            intro j hj
            simpa using h (j + 1) (by simpa using hj) (by simp)
          simp [ht]
      | succ q =>
          have ha : a = 0 := by simpa using h 0 (by simp) (by simp)
          have hq : q < t.length := by simpa using hp
          have ht : t.sum = t.getD q 0 := by
            apply ih q hq
            intro j hj hjq
            simpa using h (j + 1) (by simpa using hj) (by simpa using hjq)
          simp [ha, ht]

/-- Each entry of a list of non-negative rationals is at most the sum. -/
theorem getD_le_sum (r : List ℚ) (p : ℕ) (hp : p < r.length)
    (h : ∀ x ∈ r, 0 ≤ x) :
    r.getD p 0 ≤ r.sum := by
  induction r generalizing p with
  | nil => simp at hp
  | cons a t ih =>
      cases p with
      | zero =>
          have : 0 ≤ t.sum := List.sum_nonneg (fun x hx => h x (by simp [hx]))
          simpa using by linarith
      | succ q =>
          have hq : q < t.length := by simpa using hp
          have ht := ih q hq (fun x hx => h x (by simp [hx]))
          have ha : 0 ≤ a := h a (by simp)
          rw [List.getD_cons_succ, List.sum_cons]
          linarith

/-- Sum of pointwise differences over a list. -/
theorem sum_map_sub {α : Type} (l : List α) (f g : α → ℚ) :
    (l.map (fun x => f x - g x)).sum = (l.map f).sum - (l.map g).sum := by
  induction l with
  | nil => simp
  | cons a t ih => simp [ih]; ring

/-- A list sum as a `Finset.range` sum of its indexed reads. -/
theorem sum_eq_range_getD (l : List ℚ) :
    l.sum = ∑ i ∈ Finset.range l.length, l.getD i 0 := by
  induction l with
  | nil => simp
  | cons a t ih =>
      rw [List.sum_cons, ih, List.length_cons, Finset.sum_range_succ']
      simp [add_comm]

/-- Indexed read through `List.map` for the column extractor. -/
theorem getD_map_getD (m : List (List ℚ)) (p i : ℕ) (hi : i < m.length) :
    (m.map (fun r => r.getD p 0)).getD i 0 = (m.getD i []).getD p 0 := by
  induction m generalizing i with
  | nil => simp at hi
  | cons a t ih =>
      cases i with
      | zero => simp
      | succ j => simpa using ih j (by simpa using hi)

end ListHelpers

section FindIndexHelpers

/-- A found index is in range. -/
theorem findIndex_lt_length (p : String → Bool) (ls : List String) (i : ℕ)
    (h : findIndex p ls = some i) : i < ls.length := by
  induction ls generalizing i with
  | nil => simp [findIndex] at h
  | cons a t ih =>
      by_cases hp : p a
      · simp [findIndex, hp] at h
        subst h
        simp
      · simp [findIndex, hp] at h
        obtain ⟨j, hj, rfl⟩ := h
        simpa using ih j hj

/-- Membership produces a found index. -/
theorem findIndex_of_mem (ls : List String) (l : String) (h : l ∈ ls) :
    ∃ i, findIndex (fun e => e == l) ls = some i ∧ i < ls.length := by
  induction ls with
  | nil => simp at h
  | cons a t ih =>
      by_cases ha : a = l
      · exact ⟨0, by simp [findIndex, ha], by simp⟩
      · have hm : l ∈ t := by
          rcases List.mem_cons.mp h with h1 | h1
          · exact absurd h1.symm ha
          · exact h1
        obtain ⟨i, hi, hlt⟩ := ih hm
        refine ⟨i + 1, ?_, by simpa using Nat.succ_lt_succ hlt⟩
        simp [findIndex, ha, hi]

end FindIndexHelpers

section ValidateHelpers

/-- A passing `validateMatrix` gives the structural invariants. -/
theorem validateMatrix_none (ls : List String) (m : List (List ℚ))
    (h : validateMatrix ls m = none) :
    ls.length = m.length ∧ ∀ row ∈ m, row.length = m.length := by
  unfold validateMatrix at h
  by_cases hlen : ls.length = m.length
  · simp only [hlen, ne_eq, not_true_eq_false, if_false] at h
    constructor
    · exact hlen
    · rcases hd : findDup ls with _ | l
      · rw [hd] at h
        by_cases hall : m.all (fun row => row.length = m.length)
        · intro row hrow
          have := List.all_eq_true.mp hall row hrow
          simpa using this
        · simp [hall] at h
      · rw [hd] at h
        simp at h
  · simp [hlen] at h

end ValidateHelpers

section JsNumHelpers

/-- `|| 0` is the identity on plain numbers (zero is already zero). -/
theorem jsOrZero_num (a : ℚ) : jsOrZero (.num a) = .num a := rfl

/-- A non-degenerate self-division is `1`. -/
theorem jsDiv_num_self (a : ℚ) (h : a ≠ 0) :
    JsNum.div (.num a) (.num a) = .num 1 := by
  simp [JsNum.div, h]

/-- The degenerate-result policy for a quotient of non-negative numbers whose
denominator contains the numerator: a `0/0` turns into `NaN` and `|| 0` maps it
to `0`; otherwise the exact quotient survives. -/
theorem jsOrZero_div_nonneg (x y : ℚ) (hx : 0 ≤ x) (hy : 0 ≤ y) :
    jsOrZero (JsNum.div (.num x) (.num (x + y))) =
      .num (if x + y = 0 then 0 else x / (x + y)) := by
  by_cases h : x + y = 0
  · have hx0 : x = 0 := by linarith
    have hy0 : y = 0 := by linarith
    simp [JsNum.div, h, hx0, hy0, jsOrZero]
  · simp [JsNum.div, h, jsOrZero]

end JsNumHelpers

section PredictionSumHelpers

/-- `addRowInto` never changes the accumulator's length. -/
theorem addRowInto_length (acc row : List ℚ) :
    (addRowInto acc row).length = acc.length := by
  induction acc generalizing row with
  | nil => cases row <;> simp [addRowInto]
  | cons a as ih =>
      cases row with
      | nil => simp [addRowInto]
      | cons v vs => simp [addRowInto, ih]

/-- Indexed read of `addRowInto`, within the accumulator's range. -/
theorem addRowInto_getD (acc row : List ℚ) (j : ℕ) (hj : j < acc.length) :
    (addRowInto acc row).getD j 0 = acc.getD j 0 + row.getD j 0 := by
  induction acc generalizing row j with
  | nil => simp at hj
  | cons a as ih =>
      cases row with
      | nil => simp [addRowInto]
      | cons v vs =>
          cases j with
          | zero => simp [addRowInto]
          | succ k =>
              have hk : k < as.length := by simpa using hj
              have heq : addRowInto (a :: as) (v :: vs) = (a + v) :: addRowInto as vs := rfl
              rw [heq, List.getD_cons_succ, List.getD_cons_succ, List.getD_cons_succ]
              exact ih vs k hk

/-- `addRowInto` adds the row total to the accumulator total when the row fits. -/
theorem addRowInto_sum (acc row : List ℚ) (h : row.length ≤ acc.length) :
    (addRowInto acc row).sum = acc.sum + row.sum := by
  induction acc generalizing row with
  | nil =>
      cases row with
      | nil => simp [addRowInto]
      | cons v vs => simp at h
  | cons a as ih =>
      cases row with
      | nil => simp [addRowInto]
      | cons v vs =>
          have : vs.length ≤ as.length := by simpa using h
          simp [addRowInto, ih vs this]
          ring

/-- The fold of `addRowInto` keeps the accumulator's length. -/
theorem foldAddRow_length (rows : List (List ℚ)) (acc : List ℚ) :
    (rows.foldl addRowInto acc).length = acc.length := by
  induction rows generalizing acc with
  | nil => simp
  | cons r rs ih => simp [ih, addRowInto_length]

/-- Indexed read of the fold of `addRowInto`: initial value plus column sum. -/
theorem foldAddRow_getD (rows : List (List ℚ)) (acc : List ℚ) (j : ℕ)
    (hj : j < acc.length) :
    (rows.foldl addRowInto acc).getD j 0 =
      acc.getD j 0 + (rows.map (fun r => r.getD j 0)).sum := by
  induction rows generalizing acc with
  | nil => simp
  | cons r rs ih =>
      have hj2 : j < (addRowInto acc r).length := by simpa [addRowInto_length] using hj
      simp only [List.foldl_cons, List.map_cons, List.sum_cons]
      rw [ih (addRowInto acc r) hj2, addRowInto_getD acc r j hj]
      ring

/-- Total of the fold of `addRowInto`: initial total plus all-cells total. -/
theorem foldAddRow_sum (rows : List (List ℚ)) (acc : List ℚ)
    (h : ∀ r ∈ rows, r.length ≤ acc.length) :
    (rows.foldl addRowInto acc).sum = acc.sum + (rows.map List.sum).sum := by
  induction rows generalizing acc with
  | nil => simp
  | cons r rs ih =>
      have hr : r.length ≤ acc.length := h r (by simp)
      have hrs : ∀ x ∈ rs, x.length ≤ (addRowInto acc r).length := by
        intro x hx
        rw [addRowInto_length]
        exact h x (by simp [hx])
      simp only [List.foldl_cons, List.map_cons, List.sum_cons]
      rw [ih (addRowInto acc r) hrs, addRowInto_sum acc r hr]
      ring

/-- `getLabelsPredictionsSum` has one entry per label. -/
theorem getLabelsPredictionsSum_length (s : ConfusionMatrix) :
    (getLabelsPredictionsSum s).length = s.labels.length := by
  simp [getLabelsPredictionsSum, foldAddRow_length]

/-- For a valid matrix, entry `j` of `getLabelsPredictionsSum` is column `j`'s
total. -/
theorem getLabelsPredictionsSum_getD (s : ConfusionMatrix)
    (hv : validateMatrix s.labels s.matrix = none) (j : ℕ) (hj : j < s.labels.length) :
    (getLabelsPredictionsSum s).getD j 0 = (s.matrix.map (fun r => r.getD j 0)).sum := by
  unfold getLabelsPredictionsSum
  rw [foldAddRow_getD _ _ j (by simpa using hj)]
  simp

/-- For a valid matrix, the prediction sums total the whole grid. -/
theorem getLabelsPredictionsSum_sum (s : ConfusionMatrix)
    (hv : validateMatrix s.labels s.matrix = none) :
    (getLabelsPredictionsSum s).sum = sumMatrix s.matrix := by
  obtain ⟨hlen, hrows⟩ := validateMatrix_none _ _ hv
  unfold getLabelsPredictionsSum
  rw [foldAddRow_sum]
  · simp [sumMatrix]
  · intro r hr
    rw [List.length_replicate, hlen, hrows r hr]

/-- `reduce` without an initial value, written as a fold from the head. -/
theorem foldl_add_from_head (x : ℚ) (xs : List ℚ) :
    xs.foldl (fun p n => p + n) x = x + xs.sum := by
  induction xs generalizing x with
  | nil => simp
  | cons a t ih => simp [ih, add_assoc]

/-- Second components of a lossless zip. -/
theorem zip_map_snd {α : Type} (as : List α) (bs : List ℚ) (h : as.length = bs.length) :
    (as.zip bs).map Prod.snd = bs := by
  induction as generalizing bs with
  | nil => cases bs with
      | nil => simp
      | cons b bt => simp at h
  | cons a at' ih =>
      cases bs with
      | nil => simp at h
      | cons b bt => simp [ih bt (by simpa using h)]

end PredictionSumHelpers

section ClassesHelpers

/-- Explicit value of `getConfusionMatrixClasses` for a valid matrix and a
non-empty label found at `position`. -/
theorem getConfusionMatrixClasses_eq (s : ConfusionMatrix) (label : String) (p : ℕ)
    (hv : validateMatrix s.labels s.matrix = none) (hl : label ≠ "")
    (hfind : findIndex (fun element => element == label) s.labels = some p) :
    getConfusionMatrixClasses s label = .ok
      ⟨mEntry s.matrix p p,
       sumMatrix s.matrix - mEntry s.matrix p p
         - ((s.matrix.getD p []).sum - mEntry s.matrix p p)
         - ((s.matrix.map (fun r => r.getD p 0)).sum - mEntry s.matrix p p),
       (s.matrix.getD p []).sum - mEntry s.matrix p p,
       (s.matrix.map (fun r => r.getD p 0)).sum - mEntry s.matrix p p⟩ := by
  simp [getConfusionMatrixClasses, hv, hl, hfind, mEntry]

end ClassesHelpers

section ClassesNonneg

/-- Indexed read through `List.map` for an arbitrary row function. -/
theorem getD_map_fn (m : List (List ℚ)) (f : List ℚ → ℚ) (i : ℕ) (hi : i < m.length) :
    (m.map f).getD i 0 = f (m.getD i []) := by
  induction m generalizing i with
  | nil => simp at hi
  | cons a t ih =>
      cases i with
      | zero => simp
      | succ j => simpa using ih j (by simpa using hi)

/-- On a valid matrix with non-negative cells, the four derived counts of the
label at `position p` are non-negative. -/
theorem classes_nonneg (s : ConfusionMatrix) (p : ℕ)
    (hv : validateMatrix s.labels s.matrix = none) (hp : p < s.matrix.length)
    (hnn : ∀ row ∈ s.matrix, ∀ x ∈ row, 0 ≤ x) :
    0 ≤ mEntry s.matrix p p
  ∧ 0 ≤ (s.matrix.getD p []).sum - mEntry s.matrix p p
  ∧ 0 ≤ (s.matrix.map (fun r => r.getD p 0)).sum - mEntry s.matrix p p
  ∧ 0 ≤ sumMatrix s.matrix - mEntry s.matrix p p
        - ((s.matrix.getD p []).sum - mEntry s.matrix p p)
        - ((s.matrix.map (fun r => r.getD p 0)).sum - mEntry s.matrix p p) := by
  obtain ⟨hlen, hrows⟩ := validateMatrix_none _ _ hv
  have hrow_mem : s.matrix.getD p [] ∈ s.matrix := by
    rw [List.getD_eq_getElem _ _ hp]
    exact List.getElem_mem hp
  have hrow_len : (s.matrix.getD p []).length = s.matrix.length :=
    hrows _ hrow_mem
  have hrow_nn : ∀ x ∈ s.matrix.getD p [], 0 ≤ x := hnn _ hrow_mem
  have hp_row : p < (s.matrix.getD p []).length := by rw [hrow_len]; exact hp
  have htp_mem : mEntry s.matrix p p ∈ s.matrix.getD p [] := by
    rw [mEntry, List.getD_eq_getElem _ _ hp_row]
    exact List.getElem_mem hp_row
  have htp : 0 ≤ mEntry s.matrix p p := hrow_nn _ htp_mem
  have hfp : 0 ≤ (s.matrix.getD p []).sum - mEntry s.matrix p p := by
    have := getD_le_sum (s.matrix.getD p []) p hp_row hrow_nn
    rw [mEntry]
    linarith
  have hcol_len : (s.matrix.map (fun r => r.getD p 0)).length = s.matrix.length := by
    simp
  have hcol_nn : ∀ x ∈ s.matrix.map (fun r => r.getD p 0), 0 ≤ x := by
    intro x hx
    obtain ⟨r, hr, rfl⟩ := List.mem_map.mp hx
    have hrl : r.length = s.matrix.length := hrows r hr
    have : p < r.length := by rw [hrl]; exact hp
    have hmem : r.getD p 0 ∈ r := by
      rw [List.getD_eq_getElem _ _ this]
      exact List.getElem_mem this
    exact hnn r hr _ hmem
  have hfn : 0 ≤ (s.matrix.map (fun r => r.getD p 0)).sum - mEntry s.matrix p p := by
    have hle := getD_le_sum (s.matrix.map (fun r => r.getD p 0)) p
      (by rw [hcol_len]; exact hp) hcol_nn
    rw [getD_map_fn _ _ _ hp] at hle
    rw [mEntry]
    linarith
  have htn : 0 ≤ sumMatrix s.matrix - mEntry s.matrix p p
      - ((s.matrix.getD p []).sum - mEntry s.matrix p p)
      - ((s.matrix.map (fun r => r.getD p 0)).sum - mEntry s.matrix p p) := by
    have hL_nn : ∀ x ∈ s.matrix.map (fun r => r.sum - r.getD p 0), 0 ≤ x := by
      intro x hx
      obtain ⟨r, hr, rfl⟩ := List.mem_map.mp hx
      have hrl : r.length = s.matrix.length := hrows r hr
      have hpr : p < r.length := by rw [hrl]; exact hp
      have := getD_le_sum r p hpr (hnn r hr)
      linarith
    have hle := getD_le_sum (s.matrix.map (fun r => r.sum - r.getD p 0)) p
      (by simpa using hp) hL_nn
    rw [getD_map_fn _ _ _ hp] at hle
    have hLsum : (s.matrix.map (fun r => r.sum - r.getD p 0)).sum =
        (s.matrix.map List.sum).sum - (s.matrix.map (fun r => r.getD p 0)).sum :=
      sum_map_sub _ _ _
    rw [hLsum] at hle
    rw [sumMatrix, mEntry]
    linarith
  exact ⟨htp, hfp, hfn, htn⟩

end ClassesNonneg

/-- C1. The spec claims `setConfusionMatrix` is atomic: on an invalid candidate
it errors AND leaves `labels`/`matrix` untouched. The source assigns first and
validates afterwards, so the call does error — but the invalid candidate stays
in place. The counterexample: a valid one-label store, mutated with a
duplicate-label candidate, errors yet afterwards exposes the candidate's
labels. -/
theorem c1_atomicity_counterexample :
    (setConfusionMatrix ⟨["A"], [[1]], []⟩ ⟨["B", "B"], [[1, 2], [3, 4]]⟩).2.isSome = true
  ∧ (setConfusionMatrix ⟨["A"], [[1]], []⟩ ⟨["B", "B"], [[1, 2], [3, 4]]⟩).1.labels ≠ ["A"] := by
  constructor
  · rfl
  · decide

/-- C1 (amended): a `setConfusionMatrix` whose candidate violates a structural
invariant fails with the candidate's validation error, but the externally
observable `labels` and `matrix` are left holding the rejected candidate's
values (validation runs after assignment; there is no rollback), while the
normalization history is untouched. -/
theorem c1_set_overwrites_on_failure (s : ConfusionMatrix) (cand : CMSnapshot) (e : String)
    (hbad : validateMatrix cand.labels cand.matrix = some e) :
    setConfusionMatrix s cand =
      ({ labels := cand.labels, matrix := cand.matrix,
         normalizations := s.normalizations }, some e) := by
  simp [setConfusionMatrix, hbad]

/-- C1 witness: the amended theorem applied to the counterexample input. -/
theorem c1_witness :
    setConfusionMatrix ⟨["A"], [[1]], []⟩ ⟨["B", "B"], [[1, 2], [3, 4]]⟩ =
      (⟨["B", "B"], [[1, 2], [3, 4]], []⟩,
       some "The label B appears more than once in the labels array.") :=
  c1_set_overwrites_on_failure ⟨["A"], [[1]], []⟩ ⟨["B", "B"], [[1, 2], [3, 4]]⟩ _ (by decide)

/-- C9. `normalize` with `min >= max` throws the range error before validating,
snapshotting or touching any cell: the returned state is exactly the input
state (cells and normalization history included). -/
theorem c9_invalid_range_is_noop (s : ConfusionMatrix) (min max : ℚ)
    (fractionDigits : Option ℕ) (h : max ≤ min) :
    ConfusionMatrix.normalize s min max fractionDigits =
      (s, some "Min value cannot be equal or greater than max value.") := by
  simp [ConfusionMatrix.normalize, h]

/-- C9 witness: `normalize(1, 0)` on the Happy/Sad matrix. -/
theorem c9_witness :
    ConfusionMatrix.normalize ⟨["Happy", "Sad"], [[1, 2], [3, 4]], []⟩ 1 0 none =
      (⟨["Happy", "Sad"], [[1, 2], [3, 4]], []⟩,
       some "Min value cannot be equal or greater than max value.") :=
  c9_invalid_range_is_noop _ 1 0 none (by norm_num)

/-- C7. With a non-empty history, `revertAllNormalizations` replaces the live
`labels` and `matrix` with the snapshot at index `0` — the oldest entry. -/
theorem c7_revert_all_restores_oldest (s : ConfusionMatrix) (snap : CMSnapshot)
    (rest : List CMSnapshot) (hh : s.normalizations = snap :: rest) :
    (revertAllNormalizations s).1.labels = snap.labels
  ∧ (revertAllNormalizations s).1.matrix = snap.matrix := by
  simp [revertAllNormalizations, hh, setConfusionMatrix]

/-- C7 witness: with history `[X-snapshot, Y-snapshot]` the oldest (`X`) is
restored, not the newest (`Y`). -/
theorem c7_witness :
    (revertAllNormalizations ⟨["A"], [[5]], [⟨["X"], [[7]]⟩, ⟨["Y"], [[9]]⟩]⟩).1.labels = ["X"]
  ∧ (revertAllNormalizations ⟨["A"], [[5]], [⟨["X"], [[7]]⟩, ⟨["Y"], [[9]]⟩]⟩).1.matrix = [[7]] :=
  c7_revert_all_restores_oldest _ ⟨["X"], [[7]]⟩ [⟨["Y"], [[9]]⟩] rfl

/-- C10. `revertAllNormalizations` never shrinks the history: the stack is
exactly preserved; on an empty history (and a valid live matrix) the call is a
no-op rather than a failure; and a subsequent `revertNormalization` still pops
the newest snapshot, restoring its contents and dropping only the last entry. -/
theorem c10_revert_all_preserves_history (s : ConfusionMatrix)
    (hv : validateMatrix s.labels s.matrix = none) :
    (revertAllNormalizations s).1.normalizations = s.normalizations
  ∧ (s.normalizations = [] → revertAllNormalizations s = (s, none))
  ∧ (∀ snap rest last, s.normalizations = snap :: rest →
      s.normalizations.getLast? = some last →
      (revertNormalization (revertAllNormalizations s).1).1.normalizations =
        s.normalizations.dropLast
    ∧ (revertNormalization (revertAllNormalizations s).1).1.labels = last.labels
    ∧ (revertNormalization (revertAllNormalizations s).1).1.matrix = last.matrix) := by
  refine ⟨?_, ?_, ?_⟩
  · cases hh : s.normalizations with
    | nil => simp [revertAllNormalizations, hh]
    | cons snap rest => simp [revertAllNormalizations, hh, setConfusionMatrix]
  · intro hh
    simp [revertAllNormalizations, hh, hv]
  · intro snap rest last hh hlast
    have h1 : (revertAllNormalizations s).1 =
        ⟨snap.labels, snap.matrix, s.normalizations⟩ := by
      simp [revertAllNormalizations, hh, setConfusionMatrix]
    rw [h1]
    simp [revertNormalization, hlast, setConfusionMatrix]

/-- C10 witness: two-snapshot history — preserved by `revertAllNormalizations`,
then `revertNormalization` pops the newest (`Y`). -/
theorem c10_witness :
    (revertAllNormalizations ⟨["A"], [[5]], [⟨["X"], [[7]]⟩, ⟨["Y"], [[9]]⟩]⟩).1.normalizations
      = [⟨["X"], [[7]]⟩, ⟨["Y"], [[9]]⟩]
  ∧ (revertNormalization
      (revertAllNormalizations ⟨["A"], [[5]], [⟨["X"], [[7]]⟩, ⟨["Y"], [[9]]⟩]⟩).1).1.normalizations
      = [⟨["X"], [[7]]⟩]
  ∧ (revertNormalization
      (revertAllNormalizations ⟨["A"], [[5]], [⟨["X"], [[7]]⟩, ⟨["Y"], [[9]]⟩]⟩).1).1.labels
      = ["Y"] := by
  have h := c10_revert_all_preserves_history ⟨["A"], [[5]], [⟨["X"], [[7]]⟩, ⟨["Y"], [[9]]⟩]⟩
    (by decide)
  refine ⟨h.1, ?_, ?_⟩
  · exact (h.2.2 ⟨["X"], [[7]]⟩ [⟨["Y"], [[9]]⟩] ⟨["Y"], [[9]]⟩ rfl rfl).1
  · exact (h.2.2 ⟨["X"], [[7]]⟩ [⟨["Y"], [[9]]⟩] ⟨["Y"], [[9]]⟩ rfl rfl).2.1

/-- C4. On a valid matrix whose min and max exist and are distinct,
`normalize(0, 1)` (no `fractionDigits`) pushes a full snapshot before mutating,
so an immediate `revertNormalization` restores the state exactly: labels, every
cell, and the rest of the history. -/
theorem c4_normalize_revert_roundtrip (s : ConfusionMatrix) (mn mx : ℚ)
    (hv : validateMatrix s.labels s.matrix = none)
    (hmm : getMinAndMax s.matrix = .ok (some (mn, mx))) (hne : mn ≠ mx) :
    (ConfusionMatrix.normalize s 0 1 none).2 = none
  ∧ revertNormalization (ConfusionMatrix.normalize s 0 1 none).1 = (s, none) := by
  have h01 : ¬((1 : ℚ) ≤ 0) := by norm_num
  obtain ⟨ls, m, hist⟩ := s
  constructor
  · simp [ConfusionMatrix.normalize, h01, hv, hmm]
  · simp [ConfusionMatrix.normalize, h01, hv, hmm, revertNormalization,
      List.getLast?_concat, List.dropLast_concat, setConfusionMatrix]

/-- C4 witness: the Happy/Sad matrix round-trips exactly. -/
theorem c4_witness :
    (ConfusionMatrix.normalize ⟨["Happy", "Sad"], [[1, 2], [3, 4]], []⟩ 0 1 none).2 = none
  ∧ revertNormalization
      (ConfusionMatrix.normalize ⟨["Happy", "Sad"], [[1, 2], [3, 4]], []⟩ 0 1 none).1 =
      (⟨["Happy", "Sad"], [[1, 2], [3, 4]], []⟩, none) :=
  c4_normalize_revert_roundtrip _ 1 4 (by decide) (by rfl) (by norm_num)

section RangeSumHelpers

/-- A row total as a `Finset.range` sum of `mEntry` reads. -/
theorem rowSum_eq_range (m : List (List ℚ)) (i : ℕ) (hi : i < m.length)
    (h : ∀ row ∈ m, row.length = m.length) :
    (m.getD i []).sum = ∑ j ∈ Finset.range m.length, mEntry m i j := by
  have hmem : m.getD i [] ∈ m := by
    rw [List.getD_eq_getElem _ _ hi]
    exact List.getElem_mem hi
  have hlen : (m.getD i []).length = m.length := h _ hmem
  rw [sum_eq_range_getD, hlen]
  exact Finset.sum_congr rfl (fun j _ => rfl)

/-- A column total as a `Finset.range` sum of `mEntry` reads. -/
theorem colSum_eq_range (m : List (List ℚ)) (i : ℕ) :
    (m.map (fun r => r.getD i 0)).sum = ∑ r ∈ Finset.range m.length, mEntry m r i := by
  rw [sum_eq_range_getD]
  simp only [List.length_map]
  exact Finset.sum_congr rfl (fun r hr =>
    getD_map_fn m (fun row => row.getD i 0) r (Finset.mem_range.mp hr))

/-- The grand total as a double `Finset.range` sum of `mEntry` reads. -/
theorem sumMatrix_eq_range (m : List (List ℚ))
    (h : ∀ row ∈ m, row.length = m.length) :
    sumMatrix m =
      ∑ r ∈ Finset.range m.length, ∑ j ∈ Finset.range m.length, mEntry m r j := by
  rw [sumMatrix, sum_eq_range_getD]
  simp only [List.length_map]
  refine Finset.sum_congr rfl (fun r hr => ?_)
  have hr' : r < m.length := Finset.mem_range.mp hr
  rw [getD_map_fn m List.sum r hr']
  exact rowSum_eq_range m r hr' h

end RangeSumHelpers

/-- C2. On a valid matrix, for a (non-empty) label found at index `i`,
`getConfusionMatrixClasses` returns exactly `TP = matrix[i][i]`,
`FP = (row i total) - TP`, `FN = (column i total) - TP` and
`TN = (grand total) - TP - FP - FN`; on labels `["Happy","Sad"]` with matrix
`[[1,2],[3,4]]` the `"Happy"` classes are `{TP:1, TN:4, FP:2, FN:3}`. -/
theorem c2_classes_formulas (s : ConfusionMatrix) (label : String) (i : ℕ)
    (hv : validateMatrix s.labels s.matrix = none) (hl : label ≠ "")
    (hfind : findIndex (fun element => element == label) s.labels = some i) :
    getConfusionMatrixClasses s label = .ok
      { truePositive := mEntry s.matrix i i
        trueNegative :=
          (∑ r ∈ Finset.range s.matrix.length, ∑ j ∈ Finset.range s.matrix.length,
            mEntry s.matrix r j)
          - mEntry s.matrix i i
          - ((∑ j ∈ Finset.range s.matrix.length, mEntry s.matrix i j) - mEntry s.matrix i i)
          - ((∑ r ∈ Finset.range s.matrix.length, mEntry s.matrix r i) - mEntry s.matrix i i)
        falsePositive :=
          (∑ j ∈ Finset.range s.matrix.length, mEntry s.matrix i j) - mEntry s.matrix i i
        falseNegative :=
          (∑ r ∈ Finset.range s.matrix.length, mEntry s.matrix r i) - mEntry s.matrix i i }
  ∧ getConfusionMatrixClasses ⟨["Happy", "Sad"], [[1, 2], [3, 4]], []⟩ "Happy" =
      .ok ⟨1, 4, 2, 3⟩ := by
  constructor
  · obtain ⟨hlen, hrows⟩ := validateMatrix_none _ _ hv
    have hi : i < s.matrix.length := by
      rw [← hlen]
      exact findIndex_lt_length _ _ _ hfind
    rw [getConfusionMatrixClasses_eq s label i hv hl hfind]
    rw [rowSum_eq_range s.matrix i hi hrows, colSum_eq_range s.matrix i,
      sumMatrix_eq_range s.matrix hrows]
  · rw [getConfusionMatrixClasses_eq ⟨["Happy", "Sad"], [[1, 2], [3, 4]], []⟩ "Happy" 0
      (by decide) (by decide) (by decide)]
    simp [mEntry, sumMatrix]
    norm_num

/-- C2 witness: the Happy/Sad instance, through the theorem. -/
theorem c2_witness :
    getConfusionMatrixClasses ⟨["Happy", "Sad"], [[1, 2], [3, 4]], []⟩ "Happy" =
      .ok ⟨1, 4, 2, 3⟩ :=
  (c2_classes_formulas ⟨["Happy", "Sad"], [[1, 2], [3, 4]], []⟩ "Happy" 0
    (by decide) (by decide) (by decide)).2

section MinMaxHelpers

/-- The nested per-row fold of `getMinAndMax` is a fold over all cells. -/
theorem foldl_nested_flatten {β : Type} (m : List (List ℚ)) (g : β → ℚ → β) (init : β) :
    m.foldl (fun acc line => line.foldl g acc) init = m.flatten.foldl g init := by
  induction m generalizing init with
  | nil => simp
  | cons r rs ih => simp [List.foldl_append, ih]

/-- The simultaneous min/max pair fold splits into two independent folds. -/
theorem minmax_fold_split (l : List ℚ) (a b : ℚ) :
    l.foldl (fun mm2 v =>
        (if v < mm2.1 then v else mm2.1, if mm2.2 < v then v else mm2.2)) (a, b) =
      (l.foldl (fun x v => if v < x then v else x) a,
       l.foldl (fun x v => if x < v then v else x) b) := by
  induction l generalizing a b with
  | nil => simp
  | cons v t ih => simp [ih]

/-- The running-minimum fold returns a value taken from the start or the list,
bounded above by the start and by every element. -/
theorem foldl_min_spec (l : List ℚ) (a : ℚ) :
    (l.foldl (fun x v => if v < x then v else x) a = a
      ∨ l.foldl (fun x v => if v < x then v else x) a ∈ l)
  ∧ l.foldl (fun x v => if v < x then v else x) a ≤ a
  ∧ ∀ v ∈ l, l.foldl (fun x v => if v < x then v else x) a ≤ v := by
  induction l generalizing a with
  | nil => simp
  | cons v t ih =>
      simp only [List.foldl_cons]
      by_cases hva : v < a
      · rw [if_pos hva]
        obtain ⟨hmem, hle, hall⟩ := ih v
        refine ⟨?_, by linarith, ?_⟩
        · rcases hmem with h | h
          · exact Or.inr (by simp [h])
          · exact Or.inr (by simp [h])
        · intro w hw
          rcases List.mem_cons.mp hw with h | h
          · rw [h]; exact hle
          · exact hall w h
      · rw [if_neg hva]
        push_neg at hva
        obtain ⟨hmem, hle, hall⟩ := ih a
        refine ⟨?_, hle, ?_⟩
        · rcases hmem with h | h
          · exact Or.inl h
          · exact Or.inr (by simp [h])
        · intro w hw
          rcases List.mem_cons.mp hw with h | h
          · rw [h]; linarith
          · exact hall w h

/-- The running-maximum fold returns a value taken from the start or the list,
bounded below by the start and by every element. -/
theorem foldl_max_spec (l : List ℚ) (a : ℚ) :
    (l.foldl (fun x v => if x < v then v else x) a = a
      ∨ l.foldl (fun x v => if x < v then v else x) a ∈ l)
  ∧ a ≤ l.foldl (fun x v => if x < v then v else x) a
  ∧ ∀ v ∈ l, v ≤ l.foldl (fun x v => if x < v then v else x) a := by
  induction l generalizing a with
  | nil => simp
  | cons v t ih =>
      simp only [List.foldl_cons]
      by_cases hav : a < v
      · rw [if_pos hav]
        obtain ⟨hmem, hle, hall⟩ := ih v
        refine ⟨?_, by linarith, ?_⟩
        · rcases hmem with h | h
          · exact Or.inr (by simp [h])
          · exact Or.inr (by simp [h])
        · intro w hw
          rcases List.mem_cons.mp hw with h | h
          · rw [h]; exact hle
          · exact hall w h
      · rw [if_neg hav]
        push_neg at hav
        obtain ⟨hmem, hle, hall⟩ := ih a
        refine ⟨?_, hle, ?_⟩
        · rcases hmem with h | h
          · exact Or.inl h
          · exact Or.inr (by simp [h])
        · intro w hw
          rcases List.mem_cons.mp hw with h | h
          · rw [h]; linarith
          · exact hall w h

end MinMaxHelpers

/-- C5. The spec claims `minAndMax` returns "absent" (null) when the matrix is
empty. The source evaluates `this.matrix[0][0]` first, which on an empty matrix
throws a `TypeError` instead of returning null. -/
theorem c5_minmax_counterexample :
    getMinAndMax ([] : List (List ℚ)) =
      .error "TypeError: Cannot read properties of undefined (reading 0)" := rfl

/-- C5 (amended): `getMinAndMax` fails with a `TypeError` when the matrix is
empty; returns `null` when the first cell `matrix[0][0]` is absent or exactly
`0`; and otherwise returns a pair of cells of the grid that bound every cell
below and above (the global minimum and maximum). -/
theorem c5_minmax_amended (matrix : List (List ℚ)) :
    (matrix = [] → ∃ e, getMinAndMax matrix = .error e)
  ∧ (matrix ≠ [] → mEntry matrix 0 0 = 0 → getMinAndMax matrix = .ok none)
  ∧ (matrix ≠ [] → mEntry matrix 0 0 ≠ 0 →
      ∃ mn mx, getMinAndMax matrix = .ok (some (mn, mx))
        ∧ mn ∈ matrix.flatten ∧ mx ∈ matrix.flatten
        ∧ ∀ v ∈ matrix.flatten, mn ≤ v ∧ v ≤ mx) := by
  refine ⟨?_, ?_, ?_⟩
  · rintro rfl
    exact ⟨_, rfl⟩
  · intro hne h0
    match matrix, hne with
    | firstRow :: rest, _ =>
        match firstRow with
        | [] => rfl
        | c :: cs =>
            have hc : c = 0 := by simpa [mEntry] using h0
            simp [getMinAndMax, hc]
  · intro hne h0
    match matrix, hne with
    | firstRow :: rest, _ =>
        match firstRow with
        | [] => exact absurd (by simp [mEntry]) h0
        | c :: cs =>
            have hc : c ≠ 0 := by simpa [mEntry] using h0
            have hcmem : c ∈ ((c :: cs) :: rest : List (List ℚ)).flatten :=
              List.mem_flatten.mpr ⟨c :: cs, by simp, by simp⟩
            have hsplit : getMinAndMax ((c :: cs) :: rest) =
                .ok (some
                  ((((c :: cs) :: rest : List (List ℚ)).flatten).foldl
                    (fun x v => if v < x then v else x) c,
                   (((c :: cs) :: rest : List (List ℚ)).flatten).foldl
                    (fun x v => if x < v then v else x) c)) := by
              simp only [getMinAndMax, if_neg hc]
              rw [foldl_nested_flatten, minmax_fold_split]
            refine ⟨_, _, hsplit, ?_, ?_, ?_⟩
            · obtain ⟨hmem, _, _⟩ :=
                foldl_min_spec (((c :: cs) :: rest : List (List ℚ)).flatten) c
              rcases hmem with h | h
              · rw [h]; exact hcmem
              · exact h
            · obtain ⟨hmem, _, _⟩ :=
                foldl_max_spec (((c :: cs) :: rest : List (List ℚ)).flatten) c
              rcases hmem with h | h
              · rw [h]; exact hcmem
              · exact h
            · intro v hv
              obtain ⟨_, _, hmin⟩ :=
                foldl_min_spec (((c :: cs) :: rest : List (List ℚ)).flatten) c
              obtain ⟨_, _, hmax⟩ :=
                foldl_max_spec (((c :: cs) :: rest : List (List ℚ)).flatten) c
              exact ⟨hmin v hv, hmax v hv⟩

/-- C5 witness: the null branch and the bounding-pair branch of the amended
statement on concrete matrices. -/
theorem c5_witness :
    getMinAndMax ([[0, 1], [2, 3]] : List (List ℚ)) = .ok none
  ∧ (∃ mn mx, getMinAndMax ([[1, 2], [3, 4]] : List (List ℚ)) = .ok (some (mn, mx))
      ∧ mn ∈ ([[1, 2], [3, 4]] : List (List ℚ)).flatten
      ∧ mx ∈ ([[1, 2], [3, 4]] : List (List ℚ)).flatten
      ∧ ∀ v ∈ ([[1, 2], [3, 4]] : List (List ℚ)).flatten, mn ≤ v ∧ v ≤ mx) := by
  constructor
  · exact (c5_minmax_amended [[0, 1], [2, 3]]).2.1 (by simp) (by norm_num [mEntry])
  · exact (c5_minmax_amended [[1, 2], [3, 4]]).2.2 (by simp) (by norm_num [mEntry])

section PredictionsClaimHelpers

/-- A non-empty string has positive `length` (JS `label.length > 0`). -/
theorem string_length_pos (l : String) (h : l ≠ "") : 0 < l.length := by
  cases l with
  | mk data =>
      cases data with
      | nil => simp at h
      | cons a t => simp [String.length]

end PredictionsClaimHelpers

/-- C6. The spec claims an unknown label makes `totalPredictions` fail with an
`UnknownLabelError`. The source indexes `sumLabels[-1]` instead, returning
`undefined` without any error. -/
theorem c6_unknown_label_counterexample :
    getNumberOfPredictions ⟨["Happy", "Sad"], [[1, 2], [3, 4]], []⟩ (some "Nope") =
      .ok none := rfl

/-- C6 (amended): on a valid matrix, `getNumberOfPredictions` with a present
(non-empty) label returns that label's column-wise prediction sum; with a
non-empty label that is absent it returns `undefined` (no error is raised);
and with no label (given at least one label) it returns the sum over all
labels, i.e. the grand total of the matrix. -/
theorem c6_predictions_amended (s : ConfusionMatrix)
    (hv : validateMatrix s.labels s.matrix = none) :
    (∀ l i, l ≠ "" → findIndex (fun value => value == l) s.labels = some i →
      getNumberOfPredictions s (some l) =
        .ok (some ((s.matrix.map (fun r => r.getD i 0)).sum)))
  ∧ (∀ l, l ≠ "" → findIndex (fun value => value == l) s.labels = none →
      getNumberOfPredictions s (some l) = .ok none)
  ∧ (s.labels ≠ [] → getNumberOfPredictions s none = .ok (some (sumMatrix s.matrix))) := by
  refine ⟨?_, ?_, ?_⟩
  · intro l i hl hfind
    have hlen := string_length_pos l hl
    have hi : i < s.labels.length := findIndex_lt_length _ _ _ hfind
    have hcol := getLabelsPredictionsSum_getD s hv i hi
    simp only [getNumberOfPredictions, hlen, if_pos, hfind]
    rw [hcol]
  · intro l hl hfind
    have hlen := string_length_pos l hl
    simp only [getNumberOfPredictions, hlen, if_pos, hfind]
  · intro hne
    have hlen : (getLabelsPredictionsSum s).length = s.labels.length :=
      getLabelsPredictionsSum_length s
    have hsum := getLabelsPredictionsSum_sum s hv
    simp only [getNumberOfPredictions]
    match hS : getLabelsPredictionsSum s with
    | [] =>
        rw [hS] at hlen
        exact absurd hlen.symm (by simpa using hne)
    | x :: xs =>
        rw [hS] at hsum
        show Except.ok (some (List.foldl (fun p n => p + n) x xs)) = _
        rw [foldl_add_from_head, ← List.sum_cons, hsum]

/-- C6 witness: on the Happy/Sad matrix — present label `"Sad"` gives its
column total `6`, unknown label `"Nope"` gives `undefined` (no error), and the
no-label call gives the grand total `10`. -/
theorem c6_witness :
    getNumberOfPredictions ⟨["Happy", "Sad"], [[1, 2], [3, 4]], []⟩ (some "Sad") =
      .ok (some 6)
  ∧ getNumberOfPredictions ⟨["Happy", "Sad"], [[1, 2], [3, 4]], []⟩ (some "Nope") =
      .ok none
  ∧ getNumberOfPredictions ⟨["Happy", "Sad"], [[1, 2], [3, 4]], []⟩ none =
      .ok (some 10) := by
  have h := c6_predictions_amended ⟨["Happy", "Sad"], [[1, 2], [3, 4]], []⟩ (by decide)
  refine ⟨?_, ?_, ?_⟩
  · rw [h.1 "Sad" 1 (by decide) (by decide)]
    norm_num
  · exact h.2.1 "Nope" (by decide) (by decide)
  · rw [h.2.2 (by decide)]
    norm_num [sumMatrix]


/-- C3. On a valid matrix with non-negative cells and a present non-empty
label: every per-label metric returns `0` when its denominator is `0` (the
JavaScript `0/0 = NaN` is mapped to `0` by `|| 0`, never surfacing `NaN` or an
error), and otherwise returns exactly its stated formula — accuracy and
misclassification rate over `TP+TN+FP+FN`, precision over `TP+FP`, recall over
`TP+FN`, specificity over `TN+FP`, and F1 over `precision+recall`. -/
theorem c3_degenerate_metrics (s : ConfusionMatrix) (label : String) (i : ℕ)
    (c : ConfusionMatrixClasses)
    (hv : validateMatrix s.labels s.matrix = none)
    (hnn : ∀ row ∈ s.matrix, ∀ x ∈ row, 0 ≤ x)
    (hl : label ≠ "")
    (hfind : findIndex (fun element => element == label) s.labels = some i)
    (hc : getConfusionMatrixClasses s label = .ok c) :
    labelAccuracy s label = .ok (.num
      (if c.truePositive + c.trueNegative + c.falsePositive + c.falseNegative = 0 then 0
       else (c.truePositive + c.trueNegative) /
            (c.truePositive + c.trueNegative + c.falsePositive + c.falseNegative)))
  ∧ labelMissClassificationRate s label = .ok (.num
      (if c.truePositive + c.trueNegative + c.falsePositive + c.falseNegative = 0 then 0
       else (c.falsePositive + c.falseNegative) /
            (c.truePositive + c.trueNegative + c.falsePositive + c.falseNegative)))
  ∧ labelPrecision s label = .ok (.num
      (if c.truePositive + c.falsePositive = 0 then 0
       else c.truePositive / (c.truePositive + c.falsePositive)))
  ∧ labelRecall s label = .ok (.num
      (if c.truePositive + c.falseNegative = 0 then 0
       else c.truePositive / (c.truePositive + c.falseNegative)))
  ∧ labelSpecificity s label = .ok (.num
      (if c.trueNegative + c.falsePositive = 0 then 0
       else c.trueNegative / (c.trueNegative + c.falsePositive)))
  ∧ labelF1Score s label = .ok (.num
      (if (if c.truePositive + c.falsePositive = 0 then 0
           else c.truePositive / (c.truePositive + c.falsePositive))
        + (if c.truePositive + c.falseNegative = 0 then 0
           else c.truePositive / (c.truePositive + c.falseNegative)) = 0 then 0
       else 2 *
        (((if c.truePositive + c.falsePositive = 0 then 0
           else c.truePositive / (c.truePositive + c.falsePositive))
          * (if c.truePositive + c.falseNegative = 0 then 0
             else c.truePositive / (c.truePositive + c.falseNegative)))
         / ((if c.truePositive + c.falsePositive = 0 then 0
             else c.truePositive / (c.truePositive + c.falsePositive))
            + (if c.truePositive + c.falseNegative = 0 then 0
               else c.truePositive / (c.truePositive + c.falseNegative)))))) := by
  obtain ⟨hlen, hrows⟩ := validateMatrix_none _ _ hv
  have hi : i < s.matrix.length := by
    rw [← hlen]
    exact findIndex_lt_length _ _ _ hfind
  have hch := hc
  rw [getConfusionMatrixClasses_eq s label i hv hl hfind] at hch
  have hceq :
      c = ⟨mEntry s.matrix i i,
           sumMatrix s.matrix - mEntry s.matrix i i
             - ((s.matrix.getD i []).sum - mEntry s.matrix i i)
             - ((s.matrix.map (fun r => r.getD i 0)).sum - mEntry s.matrix i i),
           (s.matrix.getD i []).sum - mEntry s.matrix i i,
           (s.matrix.map (fun r => r.getD i 0)).sum - mEntry s.matrix i i⟩ := by
    injection hch with h
    exact h.symm
  obtain ⟨htp0, hfp0, hfn0, htn0⟩ := classes_nonneg s i hv hi hnn
  have htp : 0 ≤ c.truePositive := by rw [hceq]; exact htp0
  have htn : 0 ≤ c.trueNegative := by rw [hceq]; exact htn0
  have hfp : 0 ≤ c.falsePositive := by rw [hceq]; exact hfp0
  have hfn : 0 ≤ c.falseNegative := by rw [hceq]; exact hfn0
  have hprec : labelPrecision s label = .ok (.num
      (if c.truePositive + c.falsePositive = 0 then 0
       else c.truePositive / (c.truePositive + c.falsePositive))) := by
    simp only [labelPrecision, hv, hc]
    rw [jsOrZero_div_nonneg _ _ htp hfp]
  have hrec : labelRecall s label = .ok (.num
      (if c.truePositive + c.falseNegative = 0 then 0
       else c.truePositive / (c.truePositive + c.falseNegative))) := by
    simp only [labelRecall, hv, hc]
    rw [jsOrZero_div_nonneg _ _ htp hfn]
  refine ⟨?_, ?_, hprec, hrec, ?_, ?_⟩
  · have hd : c.truePositive + c.trueNegative + c.falsePositive + c.falseNegative
        = (c.truePositive + c.trueNegative) + (c.falsePositive + c.falseNegative) := by
      ring
    simp only [labelAccuracy, hv, hc]
    rw [hd, jsOrZero_div_nonneg _ _ (add_nonneg htp htn) (add_nonneg hfp hfn)]
  · have hd : c.truePositive + c.trueNegative + c.falsePositive + c.falseNegative
        = (c.falsePositive + c.falseNegative) + (c.truePositive + c.trueNegative) := by
      ring
    simp only [labelMissClassificationRate, hv, hc]
    rw [hd, jsOrZero_div_nonneg _ _ (add_nonneg hfp hfn) (add_nonneg htp htn)]
  · simp only [labelSpecificity, hv, hc]
    rw [jsOrZero_div_nonneg _ _ htn hfp]
  · have hlenp : 0 < label.length := string_length_pos label hl
    have hdp : ConfusionMatrix.precision s (some label) none = labelPrecision s label := by
      simp only [ConfusionMatrix.precision, hv, hlenp, if_true]
    have hdr : recallMetric s (some label) none = labelRecall s label := by
      simp only [recallMetric, hv, hlenp, if_true]
    set pv := (if c.truePositive + c.falsePositive = 0 then (0 : ℚ)
       else c.truePositive / (c.truePositive + c.falsePositive)) with hpv
    set rv := (if c.truePositive + c.falseNegative = 0 then (0 : ℚ)
       else c.truePositive / (c.truePositive + c.falseNegative)) with hrv
    have hpv0 : 0 ≤ pv := by
      rw [hpv]
      split_ifs with h
      · exact le_refl 0
      · exact div_nonneg htp (add_nonneg htp hfp)
    have hrv0 : 0 ≤ rv := by
      rw [hrv]
      split_ifs with h
      · exact le_refl 0
      · exact div_nonneg htp (add_nonneg htp hfn)
    simp only [labelF1Score, hv, hdp.trans hprec, hdr.trans hrec]
    by_cases hsum : pv + rv = 0
    · have hpvz : pv = 0 := by linarith
      have hrvz : rv = 0 := by linarith
      rw [hpvz, hrvz]
      simp [JsNum.mul, JsNum.add, JsNum.div, jsOrZero]
    · simp [JsNum.mul, JsNum.add, JsNum.div, jsOrZero, hsum]

/-- C3 witness: on the Happy/Sad matrix for label `"Happy"` (classes
`{TP:1,TN:4,FP:2,FN:3}`, all denominators non-zero) every metric equals its
formula: accuracy `1/2`, misclassification `1/2`, precision `1/3`, recall
`1/4`, specificity `2/3`, F1 `2/7`. -/
theorem c3_witness :
    labelAccuracy ⟨["Happy", "Sad"], [[1, 2], [3, 4]], []⟩ "Happy" = .ok (.num (1 / 2))
  ∧ labelMissClassificationRate ⟨["Happy", "Sad"], [[1, 2], [3, 4]], []⟩ "Happy" =
      .ok (.num (1 / 2))
  ∧ labelPrecision ⟨["Happy", "Sad"], [[1, 2], [3, 4]], []⟩ "Happy" = .ok (.num (1 / 3))
  ∧ labelRecall ⟨["Happy", "Sad"], [[1, 2], [3, 4]], []⟩ "Happy" = .ok (.num (1 / 4))
  ∧ labelSpecificity ⟨["Happy", "Sad"], [[1, 2], [3, 4]], []⟩ "Happy" = .ok (.num (2 / 3))
  ∧ labelF1Score ⟨["Happy", "Sad"], [[1, 2], [3, 4]], []⟩ "Happy" = .ok (.num (2 / 7)) := by
  have hc : getConfusionMatrixClasses ⟨["Happy", "Sad"], [[1, 2], [3, 4]], []⟩ "Happy" =
      .ok ⟨1, 4, 2, 3⟩ := by
    rw [getConfusionMatrixClasses_eq ⟨["Happy", "Sad"], [[1, 2], [3, 4]], []⟩ "Happy" 0
      (by decide) (by decide) (by decide)]
    simp [mEntry, sumMatrix]
    norm_num
  have h := c3_degenerate_metrics ⟨["Happy", "Sad"], [[1, 2], [3, 4]], []⟩ "Happy" 0
    ⟨1, 4, 2, 3⟩ (by decide) (by decide) (by decide) (by decide) hc
  refine ⟨?_, ?_, ?_, ?_, ?_, ?_⟩
  · rw [h.1]; norm_num
  · rw [h.2.1]; norm_num
  · rw [h.2.2.1]; norm_num
  · rw [h.2.2.2.1]; norm_num
  · rw [h.2.2.2.2.1]; norm_num
  · rw [h.2.2.2.2.2]; norm_num

section AverageHelpers

/-- `collectClasses` succeeds and transports a pointwise property when every
label's classes succeed. -/
theorem collectClasses_spec (s : ConfusionMatrix) (P : ConfusionMatrixClasses → Prop) :
    ∀ ls : List String,
      (∀ l ∈ ls, ∃ cc, getConfusionMatrixClasses s l = .ok cc ∧ P cc) →
      ∃ cl, collectClasses s ls = .ok cl ∧ cl.length = ls.length ∧ ∀ x ∈ cl, P x.2 := by
  intro ls
  induction ls with
  | nil => exact fun _ => ⟨[], rfl, rfl, by simp⟩
  | cons l t ih =>
      intro h
      obtain ⟨cc, hcc, hP⟩ := h l (by simp)
      obtain ⟨cl, hcl, hlen, hall⟩ := ih (fun x hx => h x (by simp [hx]))
      refine ⟨(l, cc) :: cl, ?_, by simp [hlen], ?_⟩
      · simp only [collectClasses, hcc, hcl]
      · intro x hx
        rcases List.mem_cons.mp hx with h1 | h1
        · rw [h1]; exact hP
        · exact hall x h1

/-- The componentwise class-sum fold, when every entry has `TP+TN = T` and zero
`FP`/`FN`. -/
theorem foldClasses_spec (T : ℚ) :
    ∀ (cl : List (String × ConfusionMatrixClasses)),
      (∀ x ∈ cl, x.2.truePositive + x.2.trueNegative = T
        ∧ x.2.falsePositive = 0 ∧ x.2.falseNegative = 0) →
      ∀ acc : ConfusionMatrixClasses,
        ((cl.foldl (fun acc x =>
            ⟨acc.truePositive + x.2.truePositive, acc.trueNegative + x.2.trueNegative,
             acc.falsePositive + x.2.falsePositive,
             acc.falseNegative + x.2.falseNegative⟩) acc).truePositive
          + (cl.foldl (fun acc x =>
            ⟨acc.truePositive + x.2.truePositive, acc.trueNegative + x.2.trueNegative,
             acc.falsePositive + x.2.falsePositive,
             acc.falseNegative + x.2.falseNegative⟩) acc).trueNegative
          = acc.truePositive + acc.trueNegative + cl.length * T)
        ∧ (cl.foldl (fun acc x =>
            ⟨acc.truePositive + x.2.truePositive, acc.trueNegative + x.2.trueNegative,
             acc.falsePositive + x.2.falsePositive,
             acc.falseNegative + x.2.falseNegative⟩) acc).falsePositive = acc.falsePositive
        ∧ (cl.foldl (fun acc x =>
            ⟨acc.truePositive + x.2.truePositive, acc.trueNegative + x.2.trueNegative,
             acc.falsePositive + x.2.falsePositive,
             acc.falseNegative + x.2.falseNegative⟩) acc).falseNegative = acc.falseNegative := by
  intro cl
  induction cl with
  | nil => intro _ acc; simp
  | cons x t ih =>
      intro h acc
      obtain ⟨hx, hfp, hfn⟩ := h x (by simp)
      obtain ⟨ih1, ih2, ih3⟩ := ih (fun y hy => h y (by simp [hy]))
        ⟨acc.truePositive + x.2.truePositive, acc.trueNegative + x.2.trueNegative,
         acc.falsePositive + x.2.falsePositive, acc.falseNegative + x.2.falseNegative⟩
      refine ⟨?_, ?_, ?_⟩
      · rw [List.foldl_cons]
        rw [ih1]
        simp only [List.length_cons]
        push_cast
        linarith
      · rw [List.foldl_cons, ih2]
        simp [hfp]
      · rw [List.foldl_cons, ih3]
        simp [hfn]

/-- The macro `forEach` accumulation when every label's metric is `1`. -/
theorem sumOverLabels_const_one (f : String → Except String JsNum) :
    ∀ (ls : List String) (a : ℚ),
      (∀ l ∈ ls, f l = .ok (.num 1)) →
      sumOverLabels f ls (.num a) = .ok (.num (a + ls.length)) := by
  intro ls
  induction ls with
  | nil => intro a _; simp [sumOverLabels]
  | cons l t ih =>
      intro a h
      have hl : f l = .ok (.num 1) := h l (by simp)
      have hstep : (JsNum.num a).add (.num 1) = .num (a + 1) := rfl
      simp only [sumOverLabels, hl, hstep]
      rw [ih (a + 1) (fun x hx => h x (by simp [hx]))]
      simp only [List.length_cons]
      push_cast
      ring_nf

/-- The weighted `forEach` accumulation when every label's metric is `1`: the
total is the sum of the weights. -/
theorem weightedSumOverLabels_const_one (f : String → Except String JsNum) :
    ∀ (pairs : List (String × ℚ)) (a : ℚ),
      (∀ x ∈ pairs, f x.1 = .ok (.num 1)) →
      weightedSumOverLabels f pairs (.num a) =
        .ok (.num (a + (pairs.map Prod.snd).sum)) := by
  intro pairs
  induction pairs with
  | nil => intro a _; simp [weightedSumOverLabels]
  | cons x t ih =>
      obtain ⟨l, w⟩ := x
      intro a h
      have hl : f l = .ok (.num 1) := h (l, w) (by simp)
      have hstep : (JsNum.num a).add ((JsNum.num 1).mul (.num w)) = .num (a + 1 * w) := rfl
      simp only [weightedSumOverLabels, hl, hstep]
      rw [ih (a + 1 * w) (fun y hy => h y (by simp [hy]))]
      simp only [List.map_cons, List.sum_cons]
      ring_nf

/-- The no-label `getNumberOfPredictions` totals the grid (valid matrix, at
least one label). -/
theorem predictions_none_total (s : ConfusionMatrix)
    (hv : validateMatrix s.labels s.matrix = none) (hne : s.labels ≠ []) :
    getNumberOfPredictions s none = .ok (some (sumMatrix s.matrix)) := by
  have hlen : (getLabelsPredictionsSum s).length = s.labels.length :=
    getLabelsPredictionsSum_length s
  have hsum := getLabelsPredictionsSum_sum s hv
  simp only [getNumberOfPredictions]
  match hS : getLabelsPredictionsSum s with
  | [] =>
      rw [hS] at hlen
      exact absurd hlen.symm (by simpa using hne)
  | x :: xs =>
      rw [hS] at hsum
      show Except.ok (some (List.foldl (fun p n => p + n) x xs)) = _
      rw [foldl_add_from_head, ← List.sum_cons, hsum]

end AverageHelpers

/-- For a diagonal-style matrix, `getSumConfusionMatrixClasses` pools classes
with `TP+TN = N·T` and zero `FP`/`FN`. -/
theorem getSumClasses_spec (s : ConfusionMatrix) (T : ℚ)
    (hv : validateMatrix s.labels s.matrix = none)
    (hall : ∀ l ∈ s.labels, ∃ cc, getConfusionMatrixClasses s l = .ok cc ∧
      (cc.truePositive + cc.trueNegative = T
        ∧ cc.falsePositive = 0 ∧ cc.falseNegative = 0)) :
    ∃ C, getSumConfusionMatrixClasses s = .ok C
      ∧ C.truePositive + C.trueNegative = s.labels.length * T
      ∧ C.falsePositive = 0 ∧ C.falseNegative = 0 := by
  obtain ⟨cl, hcl2, hclen, hclP⟩ := collectClasses_spec s
    (fun cc => cc.truePositive + cc.trueNegative = T
      ∧ cc.falsePositive = 0 ∧ cc.falseNegative = 0) s.labels hall
  obtain ⟨hf1, hf2, hf3⟩ := foldClasses_spec T cl hclP ⟨0, 0, 0, 0⟩
  refine ⟨cl.foldl (fun acc x =>
      ⟨acc.truePositive + x.2.truePositive, acc.trueNegative + x.2.trueNegative,
       acc.falsePositive + x.2.falsePositive,
       acc.falseNegative + x.2.falseNegative⟩) ⟨0, 0, 0, 0⟩, ?_, ?_, ?_, ?_⟩
  · simp only [getSumConfusionMatrixClasses, getAllMatrixClasses, hv, hcl2]
  · rw [hf1, hclen]
    norm_num
  · rw [hf2]
  · rw [hf3]

/-- C8. On every valid N×N matrix (N ≥ 1, non-empty labels) that is diagonal
with positive diagonal cells and zero off-diagonal cells, the accuracy is
exactly `1`: per label for every label, and for each of the Micro, Macro and
Weighted matrix averages. -/
theorem c8_diagonal_accuracy_one (s : ConfusionMatrix)
    (hv : validateMatrix s.labels s.matrix = none)
    (hN : 1 ≤ s.labels.length)
    (hemp : ∀ l ∈ s.labels, l ≠ "")
    (hdiag : ∀ i, i < s.labels.length → ∀ j, j < s.labels.length → i ≠ j →
      mEntry s.matrix i j = 0)
    (hpos : ∀ i, i < s.labels.length → 0 < mEntry s.matrix i i) :
    (∀ l ∈ s.labels, labelAccuracy s l = .ok (.num 1))
  ∧ (∀ avg : Average, matrixAccuracy s avg = .ok (.num 1)) := by
  obtain ⟨hlen, hrows⟩ := validateMatrix_none _ _ hv
  have hrowsum : ∀ p, p < s.labels.length →
      (s.matrix.getD p []).sum = mEntry s.matrix p p := by
    intro p hp
    have hpm : p < s.matrix.length := hlen ▸ hp
    have hmem : s.matrix.getD p [] ∈ s.matrix := by
      rw [List.getD_eq_getElem _ _ hpm]
      exact List.getElem_mem hpm
    have hrl : (s.matrix.getD p []).length = s.matrix.length := hrows _ hmem
    apply sum_eq_getD_of_off_zero
    · rw [hrl]; exact hpm
    · intro j hj hjp
      have hjN : j < s.labels.length := by
        rw [hlen]
        rw [hrl] at hj
        exact hj
      exact hdiag p hp j hjN (Ne.symm hjp)
  have hcolsum : ∀ p, p < s.labels.length →
      (s.matrix.map (fun r => r.getD p 0)).sum = mEntry s.matrix p p := by
    intro p hp
    have hpm : p < s.matrix.length := hlen ▸ hp
    have hclen : (s.matrix.map (fun r => r.getD p 0)).length = s.matrix.length := by
      simp
    have h1 : (s.matrix.map (fun r => r.getD p 0)).getD p 0 = mEntry s.matrix p p :=
      getD_map_fn s.matrix _ p hpm
    rw [← h1]
    apply sum_eq_getD_of_off_zero
    · rw [hclen]; exact hpm
    · intro j hj hjp
      have hjm : j < s.matrix.length := by rw [← hclen]; exact hj
      have hjN : j < s.labels.length := by rw [hlen]; exact hjm
      rw [getD_map_fn s.matrix _ j hjm]
      exact hdiag j hjN p hp hjp
  have hmne : s.matrix ≠ [] := by
    intro h
    rw [h, List.length_nil] at hlen
    omega
  have hTpos : 0 < sumMatrix s.matrix := by
    rw [sumMatrix]
    apply List.sum_pos
    · intro x hx
      obtain ⟨row, hrow, rfl⟩ := List.mem_map.mp hx
      obtain ⟨idx, hidx, heq⟩ := List.getElem_of_mem hrow
      have hidxN : idx < s.labels.length := by rw [hlen]; exact hidx
      have hval := hrowsum idx hidxN
      rw [List.getD_eq_getElem _ _ hidx, heq] at hval
      rw [hval]
      exact hpos idx hidxN
    · simpa using hmne
  have hclasses : ∀ l ∈ s.labels, ∃ p, p < s.labels.length
      ∧ findIndex (fun element => element == l) s.labels = some p
      ∧ getConfusionMatrixClasses s l = .ok
          ⟨mEntry s.matrix p p, sumMatrix s.matrix - mEntry s.matrix p p, 0, 0⟩ := by
    intro l hl
    obtain ⟨p, hfind, hp⟩ := findIndex_of_mem s.labels l hl
    refine ⟨p, hp, hfind, ?_⟩
    rw [getConfusionMatrixClasses_eq s l p hv (hemp l hl) hfind]
    rw [hrowsum p hp, hcolsum p hp]
    norm_num
  have hlab : ∀ l ∈ s.labels, labelAccuracy s l = .ok (.num 1) := by
    intro l hl
    obtain ⟨p, hp, hfind, hcl⟩ := hclasses l hl
    simp only [labelAccuracy, hv, hcl]
    have e2 : mEntry s.matrix p p + (sumMatrix s.matrix - mEntry s.matrix p p) + 0 + 0
        = sumMatrix s.matrix := by ring
    have e1 : mEntry s.matrix p p + (sumMatrix s.matrix - mEntry s.matrix p p)
        = sumMatrix s.matrix := by ring
    rw [e2, e1, jsDiv_num_self _ (ne_of_gt hTpos), jsOrZero_num]
  have hNQpos : (0 : ℚ) < (s.labels.length : ℚ) := by
    exact_mod_cast Nat.lt_of_lt_of_le Nat.zero_lt_one hN
  have hmacro : macroAccuracy s = .ok (.num 1) := by
    have hfold := sumOverLabels_const_one (labelAccuracy s) s.labels 0 hlab
    simp only [macroAccuracy, hfold]
    have e0 : (0 : ℚ) + (s.labels.length : ℚ) = (s.labels.length : ℚ) := by ring
    rw [e0, jsDiv_num_self _ (ne_of_gt hNQpos), jsOrZero_num]
  have hall : ∀ l ∈ s.labels, ∃ cc, getConfusionMatrixClasses s l = .ok cc ∧
      (cc.truePositive + cc.trueNegative = sumMatrix s.matrix
        ∧ cc.falsePositive = 0 ∧ cc.falseNegative = 0) := by
    intro l hl
    obtain ⟨p, hp, hfind, hcl⟩ := hclasses l hl
    refine ⟨_, hcl, ?_, rfl, rfl⟩
    show mEntry s.matrix p p + (sumMatrix s.matrix - mEntry s.matrix p p)
        = sumMatrix s.matrix
    ring
  have hmicro : microAccuracy s = .ok (.num 1) := by
    obtain ⟨C, hgsum, hC1, hC2, hC3⟩ := getSumClasses_spec s (sumMatrix s.matrix) hv hall
    simp only [microAccuracy, hgsum]
    rw [hC2, hC3]
    have e2 : C.truePositive + C.trueNegative + 0 + 0
        = C.truePositive + C.trueNegative := by ring
    have hCne : C.truePositive + C.trueNegative ≠ 0 := by
      rw [hC1]
      exact ne_of_gt (mul_pos hNQpos hTpos)
    rw [e2, jsDiv_num_self _ hCne, jsOrZero_num]
  have hweighted : weightedAccuracy s = .ok (.num 1) := by
    have hnlab : s.labels ≠ [] := by
      intro h
      rw [h] at hN
      simp at hN
    have hpred := predictions_none_total s hv hnlab
    have hzip : ∀ x ∈ s.labels.zip (getLabelsPredictionsSum s),
        labelAccuracy s x.1 = .ok (.num 1) := by
      intro x hx
      exact hlab x.1 (List.of_mem_zip hx).1
    have hwsum := weightedSumOverLabels_const_one (labelAccuracy s)
      (s.labels.zip (getLabelsPredictionsSum s)) 0 hzip
    rw [zip_map_snd _ _ (getLabelsPredictionsSum_length s).symm,
      getLabelsPredictionsSum_sum s hv] at hwsum
    simp only [weightedAccuracy, hpred, hwsum, jsNumOfOpt]
    have e0 : (0 : ℚ) + sumMatrix s.matrix = sumMatrix s.matrix := by ring
    rw [e0, jsDiv_num_self _ (ne_of_gt hTpos), jsOrZero_num]
  refine ⟨hlab, ?_⟩
  intro avg
  cases avg with
  | Micro => simp only [matrixAccuracy, hv]; exact hmicro
  | Macro => simp only [matrixAccuracy, hv]; exact hmacro
  | Weighted => simp only [matrixAccuracy, hv]; exact hweighted

/-- C8 witness: the diagonal matrix `[[1,0],[0,2]]` with labels `["A","B"]`
has accuracy `1` per label and under every average mode. -/
theorem c8_witness :
    labelAccuracy ⟨["A", "B"], [[1, 0], [0, 2]], []⟩ "A" = .ok (.num 1)
  ∧ labelAccuracy ⟨["A", "B"], [[1, 0], [0, 2]], []⟩ "B" = .ok (.num 1)
  ∧ matrixAccuracy ⟨["A", "B"], [[1, 0], [0, 2]], []⟩ .Micro = .ok (.num 1)
  ∧ matrixAccuracy ⟨["A", "B"], [[1, 0], [0, 2]], []⟩ .Macro = .ok (.num 1)
  ∧ matrixAccuracy ⟨["A", "B"], [[1, 0], [0, 2]], []⟩ .Weighted = .ok (.num 1) := by
  have h := c8_diagonal_accuracy_one ⟨["A", "B"], [[1, 0], [0, 2]], []⟩
    (by decide) (by decide) (by decide) (by decide) (by decide)
  exact ⟨h.1 "A" (by simp), h.1 "B" (by simp), h.2 .Micro, h.2 .Macro, h.2 .Weighted⟩
